import Mathlib

/-!
Verification development for the chunked dense-retrieval search engine and the
IR-metric evaluator of `mteb/evaluation/evaluators/Image/Any2AnyRetrievalEvaluator.py`.

The embedding models the ranking machinery over exact rational scores: the
embedding provider and the two score functions (`cos_sim`, `dot`) are external
collaborators, so a search call is parametrised by the score matrix they
ultimately produce, one `RawScore` per (query index, corpus index) pair.  A
`RawScore` is either a real value (a rational) or NaN, which line 198 of the
source replaces by the sentinel `-1` before top-k selection.  Corpus and query
identifiers are Python strings, compared lexicographically by code point; this
is `List.instLT` on the underlying character lists.
-/

namespace Any2Any

/-- A similarity score as produced by the score function for one
(query, corpus item) pair: a real value (modelled as a rational) or NaN
(produced by degenerate/zero vectors). -/
inductive RawScore
  | nan
  | val (q : ℚ)
deriving DecidableEq, Repr

/-- Line 198: `cos_scores[torch.isnan(cos_scores)] = -1`.  NaN scores are
replaced by the sentinel `-1`; finite scores are kept. -/
def sanitize : RawScore → ℚ
  | .nan => -1
  | .val q => q

/-- Python string comparison `a < b`: lexicographic on code points, i.e. the
lexicographic order of the underlying character lists. -/
def idLt (a b : String) : Prop := a.data < b.data

/-- Python string comparison `a <= b` on code-point lists. -/
def idLe (a b : String) : Prop := a.data ≤ b.data

instance (a b : String) : Decidable (idLt a b) := inferInstanceAs (Decidable (_ < _))

instance (a b : String) : Decidable (idLe a b) := inferInstanceAs (Decidable (_ ≤ _))

/-- Python tuple comparison `(score, corpus_id) <= (score', corpus_id')` as
used by `heapq` on the pairs pushed at lines 216-219: lexicographic, score
first, then the id string. -/
def pairLe (x y : ℚ × String) : Prop :=
  x.1 < y.1 ∨ (x.1 = y.1 ∧ idLe x.2 y.2)

/-- Strict version of `pairLe`: Python `(score, corpus_id) < (score', corpus_id')`. -/
def pairLt (x y : ℚ × String) : Prop :=
  x.1 < y.1 ∨ (x.1 = y.1 ∧ idLt x.2 y.2)

instance (x y : ℚ × String) : Decidable (pairLe x y) :=
  inferInstanceAs (Decidable (_ ∨ _))

instance (x y : ℚ × String) : Decidable (pairLt x y) :=
  inferInstanceAs (Decidable (_ ∨ _))

/-- The minimal element of `x :: xs` under the tuple order: the element that
`heapq` keeps at the heap root and that `heappushpop` discards. -/
def listMin : ℚ × String → List (ℚ × String) → ℚ × String
  | x, [] => x
  | x, y :: ys => if pairLe y x then listMin y ys else listMin x ys

/-- Effect of `heapq.heappushpop(heap, item)` on the heap contents: one minimal
element of `item :: heap` is removed (`List.erase` drops one occurrence). -/
def removeMin (x : ℚ × String) (heap : List (ℚ × String)) : List (ℚ × String) :=
  (x :: heap).erase (listMin x heap)

/-- Lines 216-219: `heappush` while the heap holds fewer than `top_k` entries,
otherwise `heappushpop`.  The heap is modelled by its contents; the internal
binary-tree layout is irrelevant because line 221-223 drains the heap into an
unordered id-to-score mapping. -/
def heapAdd (cap : Nat) (heap : List (ℚ × String)) (x : ℚ × String) :
    List (ℚ × String) :=
  if heap.length < cap then x :: heap else removeMin x heap

/-- Score-descending comparison between `(score, corpus_id)` entries, used to
model the selection order of `torch.topk`. -/
def scoreGe (x y : ℚ × String) : Prop := y.1 ≤ x.1

instance : DecidableRel scoreGe := fun x y => inferInstanceAs (Decidable (y.1 ≤ x.1))

instance : IsTotal (ℚ × String) scoreGe := ⟨fun x y => le_total y.1 x.1⟩

instance : IsTrans (ℚ × String) scoreGe := ⟨fun _ _ _ h1 h2 => le_trans h2 h1⟩

/-- Modelled from the spec: `torch.topk(cos_scores, top_k, dim=1, largest=True,
sorted=return_sorted)` at lines 200-206 is external library code; the spec
requires "a valid top-k by score" with ties broken by the underlying ordering
routine.  Modelled as a stable score-descending sort followed by `take k`
(stability gives the lower chunk index on ties).  `torch.topk` raises a
`RuntimeError` when `k` exceeds the size of the selection dimension; that guard
is the caller's `k ≤ chunk length` test in `searchLoop`. -/
def chunkTopk (k : Nat) (entries : List (ℚ × String)) : List (ℚ × String) :=
  (List.insertionSort scoreGe entries).take k

/-- Corpus chunking, lines 156-162: contiguous slices
`corpus[chunk_start : chunk_start + corpus_chunk_size]`.  Written with explicit
fuel (the list length) so that the definition evaluates by `rfl`. -/
def chunksOfFuel {α : Type} (c : Nat) : Nat → List α → List (List α)
  | 0, _ => []
  | _, [] => []
  | fuel + 1, l => l.take c :: chunksOfFuel c fuel (l.drop c)

/-- Chunking of the whole corpus list into contiguous chunks of size `c`. -/
def chunksOf {α : Type} (c : Nat) (l : List α) : List (List α) :=
  chunksOfFuel c l.length l

/-- The `(score, corpus_id)` entries contributed by one chunk for query `q`
(lines 195-215): the chunk's column of the sanitized score matrix paired with
the chunk ids.  Each chunk element carries its global corpus index so that the
score oracle can be consulted; the score of corpus item `i` for query `q` is
fixed by their embeddings, hence identical in the chunked and one-shot runs. -/
def chunkEntries (raw : Nat → Nat → RawScore) (q : Nat) (chunk : List (Nat × String)) :
    List (ℚ × String) :=
  chunk.map fun e => (sanitize (raw q e.1), e.2)

/-- Lines 200-219 for one chunk: take the chunk-local top-`k` for every query
and merge it into that query's bounded heap.  Heaps are kept positionally,
aligned with the query id list. -/
def stepChunk (raw : Nat → Nat → RawScore) (k : Nat) (chunk : List (Nat × String))
    (heaps : List (List (ℚ × String))) : List (List (ℚ × String)) :=
  heaps.enum.map fun p => (chunkTopk k (chunkEntries raw p.1 chunk)).foldl (heapAdd k) p.2

/-- Failure modes of `DenseRetrievalExactSearch.search`:
`invalidScoreFunction` is the `ValueError` of lines 101-104;
`emptyQueries` and `emptyCorpus` are the `IndexError`s raised by
`queries[0]` (line 110) and `corpus[0]` (line 146) on an empty collection;
`invalidChunkSize` is the `ValueError` of `range(0, n, 0)` at line 156;
`topkOutOfRange` is the `RuntimeError` of `torch.topk` when `top_k` exceeds
the chunk width (line 200). -/
inductive SearchError
  | invalidScoreFunction
  | emptyQueries
  | emptyCorpus
  | invalidChunkSize
  | topkOutOfRange
deriving DecidableEq, Repr

/-- The chunk loop of lines 156-219: process chunks strictly sequentially,
threading the per-query heaps. -/
def searchLoop (raw : Nat → Nat → RawScore) (k : Nat) :
    List (List (Nat × String)) → List (List (ℚ × String)) →
    Except SearchError (List (List (ℚ × String)))
  | [], heaps => .ok heaps
  | ch :: rest, heaps =>
    if k ≤ ch.length then searchLoop raw k rest (stepChunk raw k ch heaps)
    else .error .topkOutOfRange

/-- `DenseRetrievalExactSearch.search` (lines 92-225).  Checks the score
function name first (lines 101-104), touches `queries[0]` (line 110) and
`corpus[0]` (line 146), then runs the chunk loop and drains every query's heap
into the Result Set in query order (lines 221-225).  The result pairs each
query id with its drained heap contents `(score, corpus_id)`; with unique ids
this is exactly the nested dict `{qid: {corpus_id: score}}`. -/
def search (scoreFunction : String) (queryIds corpusIds : List String)
    (raw : Nat → Nat → RawScore) (topK chunkSize : Nat) :
    Except SearchError (List (String × List (ℚ × String))) :=
  if scoreFunction = "cos_sim" ∨ scoreFunction = "dot" then
    if queryIds.isEmpty then .error .emptyQueries
    else if corpusIds.isEmpty then .error .emptyCorpus
    else if chunkSize = 0 then .error .invalidChunkSize
    else
      match searchLoop raw topK (chunksOf chunkSize corpusIds.enum)
          (queryIds.map fun _ => []) with
      | .ok heaps => .ok (queryIds.zip heaps)
      | .error e => .error e
  else .error .invalidScoreFunction

/-! ### Cached-results loader -/

/-- Shape of a decoded JSON document, as handed to `load_results_file` by
`json.load` (line 246). -/
inductive JValue
  | null
  | bool (b : Bool)
  | num (q : ℚ)
  | str (s : String)
  | arr (l : List JValue)
  | obj (l : List (String × JValue))

/-- Whether a decoded value is a JSON object (`isinstance(x, dict)`). -/
def JValue.isObj : JValue → Bool
  | .obj _ => true
  | _ => false

/-- Whether a decoded value has the Result Set shape `{qid: {doc_id: score}}`:
an object all of whose values are objects. -/
def isResultMapping : JValue → Bool
  | .obj l => l.all fun p => p.2.isObj
  | _ => false

/-- Failure modes of `load_results_file` on decoded content:
`assertionError` from the two `assert isinstance(..., dict)` checks
(lines 247-248), `indexError` from `list(previous_results.keys())[0]` on an
empty object (line 248). -/
inductive LoadError
  | assertionError
  | indexError
deriving DecidableEq, Repr

/-- `DenseRetrievalExactSearch.load_results_file`, lines 245-249, applied to
already-decoded content: assert the top level is an object, then assert that
the value of the FIRST key is an object, and return the content unchanged. -/
def load_results_file (v : JValue) : Except LoadError JValue :=
  match v with
  | .obj [] => .error .indexError
  | .obj ((k0, v0) :: rest) =>
      if v0.isObj then .ok (.obj ((k0, v0) :: rest)) else .error .assertionError
  | _ => .error .assertionError

/-! ### Metric evaluator -/

/-- Ground-truth relevance judgments: `{qid: {doc_id: grade}}`. -/
abbrev Qrels := List (String × List (String × Int))

/-- A Result Set: `{qid: {doc_id: score}}`. -/
abbrev ResultSet := List (String × List (String × ℚ))

/-- Lines 304-312: when `ignore_identical_ids` is true, every `(qid, pid)` pair
with `qid == pid` is popped from `results` before scoring; otherwise `results`
is left untouched.  Keys are never removed, only inner entries. -/
def applyIgnore (flag : Bool) (results : ResultSet) : ResultSet :=
  if flag then results.map fun p => (p.1, p.2.filter fun e => ¬(e.1 = p.1)) else results

/-- Whether an association list has an entry for `k`. -/
def hasKey {α : Type} (m : List (String × α)) (k : String) : Bool :=
  m.any fun p => p.1 = k

/-- The queries actually scored by `pytrec_eval.RelevanceEvaluator.evaluate`
(line 333): the queries of the run that also appear in the qrels, in run
order. -/
def scoredIds (qrels : Qrels) (results : ResultSet) : List String :=
  (results.map Prod.fst).filter fun q => hasKey qrels q

/-- Banker's rounding of a rational to the nearest integer, halves to even:
Python's `round`. -/
def roundHalfEven (q : ℚ) : ℤ :=
  if q - ⌊q⌋ < 1 / 2 then ⌊q⌋
  else if 1 / 2 < q - ⌊q⌋ then ⌊q⌋ + 1
  else if Even ⌊q⌋ then ⌊q⌋ else ⌊q⌋ + 1

/-- Python `round(x, 5)` (lines 350-353): round to 5 decimal digits. -/
def round5 (q : ℚ) : ℚ := (roundHalfEven (q * 100000) : ℚ) / 100000

/-- Mean of a metric over the set of scored queries, the quantity the spec says
each reported value aggregates. -/
def meanOverScored (f : String → ℚ) (scored : List String) : ℚ :=
  (∑ q ∈ scored.toFinset, f q) / (scored.toFinset.card : ℚ)

/-- Failure modes of `Any2AnyRetrievalEvaluator.evaluate`:
`zeroDivisionError` is Python's error from `sum(...) / len(scores)` with
`len(scores) == 0` (lines 350-353); `indexError` arises in
`evaluate_abstention` from `all_conf_scores[0]` when `results` is empty
(line 402).  `noScoredQueries` is the explicit error the spec's taxonomy
demands; no code path produces it. -/
inductive EvalError
  | zeroDivisionError
  | indexError
  | noScoredQueries
deriving DecidableEq, Repr

/-- Output of `evaluate` (line 359): the four rounded mean-per-metric maps and
the nAUC abstention map. -/
structure EvalOut where
  ndcg : List (String × ℚ)
  map : List (String × ℚ)
  recallK : List (String × ℚ)
  precision : List (String × ℚ)
  naucs : List (String × ℚ)
deriving DecidableEq, Repr

/-- Association-list lookup with default, modelling Python `x[fct]` on the
per-query confidence dicts (assumed uniform across queries). -/
def lookupD (m : List (String × ℚ)) (k : String) : ℚ :=
  match m.find? (fun p => p.1 = k) with
  | some p => p.2
  | none => 0

/-- `Any2AnyRetrievalEvaluator.evaluate_abstention` (lines 392-413).  Modelled
from the spec: `confidence_scores` and `nAUC` live in `..utils`, outside this
repository's sources; they are passed as oracles (`conf` maps one query's
similarity-score list to named confidence scores, `nauc` maps the per-query
confidence and metric vectors to a normalized AUC).  Line 402 indexes
`all_conf_scores[0]`, raising `IndexError` when `results` is empty. -/
def evaluate_abstention (conf : List ℚ → List (String × ℚ))
    (nauc : List ℚ → List ℚ → ℚ) (results : ResultSet)
    (metricScores : List (String × List ℚ)) : Except EvalError (List (String × ℚ)) :=
  match results with
  | [] => .error .indexError
  | r0 :: _ =>
      let simLists := results.map fun p => p.2.map Prod.snd
      let fcts := (conf (r0.2.map Prod.snd)).map Prod.fst
      .ok ((metricScores.map fun m =>
        fcts.map fun f =>
          ("nAUC_" ++ m.1 ++ "_" ++ f,
            nauc (simLists.map fun sims => lookupD (conf sims) f) m.2)).flatten)

/-- `Any2AnyRetrievalEvaluator.evaluate` (lines 291-359).  Modelled from the
spec where it calls external code: the per-query trec metric values computed by
`pytrec_eval` are an oracle `trec measure k qid` (the source reads
`scores[qid]["ndcg_cut_" + str(k)]` and friends at lines 337-340).  The scored
query set is the qrels/run key intersection.  For every requested cutoff the
reported value is `round(sum(per-query list) / len(scores), 5)`; the division
is unguarded, so an empty scored set raises `ZeroDivisionError` (line 350). -/
def evaluate (trec : String → Nat → String → ℚ) (conf : List ℚ → List (String × ℚ))
    (nauc : List ℚ → List ℚ → ℚ) (qrels : Qrels) (results : ResultSet)
    (kValues : List Nat) (ignoreIdenticalIds : Bool) : Except EvalError EvalOut :=
  let res := applyIgnore ignoreIdenticalIds results
  let qs := scoredIds qrels res
  let perQuery := fun (measure : String) (k : Nat) => qs.map fun qid => trec measure k qid
  if kValues.isEmpty then
    match evaluate_abstention conf nauc res [] with
    | .error e => .error e
    | .ok n => .ok ⟨[], [], [], [], n⟩
  else if qs.isEmpty then .error .zeroDivisionError
  else
    let mk := fun (pre : String) (measure : String) =>
      kValues.map fun k =>
        (pre ++ toString k, round5 ((perQuery measure k).sum / (qs.length : ℚ)))
    let metricLists :=
      (kValues.map fun k => ("NDCG@" ++ toString k, perQuery "ndcg_cut" k)) ++
      (kValues.map fun k => ("MAP@" ++ toString k, perQuery "map_cut" k)) ++
      (kValues.map fun k => ("Recall@" ++ toString k, perQuery "recall" k)) ++
      (kValues.map fun k => ("P@" ++ toString k, perQuery "P" k))
    match evaluate_abstention conf nauc res metricLists with
    | .error e => .error e
    | .ok n =>
        .ok ⟨mk "NDCG@" "ndcg_cut", mk "MAP@" "map_cut", mk "Recall@" "recall",
          mk "P@" "P", n⟩

/-! ### Derived definitions used by the development -/

/-- Invariant of the bounded-heap loop: after pushing the elements of `seen`,
the heap holds a duplicate-free selection of `seen` of size
`min cap (seen.length)`, and every pushed element that is not in the heap is
strictly below every heap element in the tuple order. -/
def HeapInv (cap : Nat) (seen heap : List (ℚ × String)) : Prop :=
  heap.Nodup ∧ (∀ y ∈ heap, y ∈ seen) ∧ heap.length = min cap seen.length ∧
    ∀ z ∈ seen, z ∉ heap → ∀ y ∈ heap, pairLt z y

/-- All `(score, corpus_id)` entries pushed onto query `q`'s heap across the
whole chunk loop: the concatenation of the chunk-local top-k selections. -/
def pushedFor (raw : Nat → Nat → RawScore) (k q : Nat)
    (chunks : List (List (Nat × String))) : List (ℚ × String) :=
  (chunks.map fun ch => chunkTopk k (chunkEntries raw q ch)).flatten

/-- The score/id entry of every corpus item for query `q`: the `q`-th row of
the (sanitized) global score matrix, paired with corpus ids. -/
def allEntries (raw : Nat → Nat → RawScore) (q : Nat) (cids : List String) :
    List (ℚ × String) :=
  cids.enum.map fun e => (sanitize (raw q e.1), e.2)

/-- Decidable equality for `Except`, so that concrete runs of the embedded
functions can be checked by `decide`. -/
instance {ε α : Type} [DecidableEq ε] [DecidableEq α] : DecidableEq (Except ε α) :=
  fun x y =>
    match x, y with
    | .ok a, .ok b =>
        if h : a = b then isTrue (by rw [h])
        else isFalse fun hc => h (Except.ok.inj hc)
    | .error e, .error f =>
        if h : e = f then isTrue (by rw [h])
        else isFalse fun hc => h (Except.error.inj hc)
    | .ok _, .error _ => isFalse fun hc => Except.noConfusion hc
    | .error _, .ok _ => isFalse fun hc => Except.noConfusion hc

/-- Concrete score oracle: three distinct scores 3, 2, 1 for corpus indices
0, 1, 2 (used to exercise the chunk loop on a 3-item corpus). -/
def threeScores : Nat → Nat → RawScore := fun _ c =>
  if c = 0 then .val 3 else if c = 1 then .val 2 else .val 1

/-- Concrete score oracle: corpus item 0 scores NaN, corpus item 1 scores -5
(a legitimate dot-product value below the NaN sentinel -1). -/
def nanVsNegFive : Nat → Nat → RawScore := fun _ c =>
  if c = 0 then .nan else .val (-5)

/-- Concrete score oracle: corpus item 0 scores NaN, items 1 and 2 score
-3 and -7. -/
def nanNegThreeNegSeven : Nat → Nat → RawScore := fun _ c =>
  if c = 0 then .nan else if c = 1 then .val (-3) else .val (-7)

/-- Decoded cached-results content whose FIRST value is an object but whose
second value is a bare number: not a mapping of mappings. -/
def badCached : JValue := .obj [("q1", .obj []), ("q2", .num 5)]

/-- Decoded cached-results content that is a well-formed non-empty mapping of
mappings. -/
def goodCached : JValue := .obj [("q1", .obj [("d1", .num 1)])]

/-! ### Order facts for the heap's tuple comparison -/

theorem idLe_refl (a : String) : idLe a a := le_refl _

theorem idLe_trans {a b c : String} (h1 : idLe a b) (h2 : idLe b c) : idLe a c :=
  le_trans h1 h2

theorem idLe_antisymm {a b : String} (h1 : idLe a b) (h2 : idLe b a) : a = b :=
  String.ext (le_antisymm h1 h2)

theorem idLe_total (a b : String) : idLe a b ∨ idLe b a := le_total _ _

theorem data_ne_of_ne {a b : String} (h : a ≠ b) : a.data ≠ b.data :=
  fun hd => h (String.ext hd)

theorem idLt_iff {a b : String} : idLt a b ↔ idLe a b ∧ a ≠ b := by
  constructor
  · intro h
    exact ⟨le_of_lt h, fun he => absurd h (by simp [he, idLt])⟩
  · rintro ⟨h1, h2⟩
    exact lt_of_le_of_ne h1 (data_ne_of_ne h2)

theorem pairLe_refl (x : ℚ × String) : pairLe x x := Or.inr ⟨rfl, idLe_refl _⟩

theorem pairLe_total (x y : ℚ × String) : pairLe x y ∨ pairLe y x := by
  rcases lt_trichotomy x.1 y.1 with h | h | h
  · exact Or.inl (Or.inl h)
  · rcases idLe_total x.2 y.2 with h2 | h2
    · exact Or.inl (Or.inr ⟨h, h2⟩)
    · exact Or.inr (Or.inr ⟨h.symm, h2⟩)
  · exact Or.inr (Or.inl h)

theorem pairLe_trans {x y z : ℚ × String} (h1 : pairLe x y) (h2 : pairLe y z) :
    pairLe x z := by
  rcases h1 with h1 | ⟨h1, h1'⟩ <;> rcases h2 with h2 | ⟨h2, h2'⟩
  · exact Or.inl (lt_trans h1 h2)
  · exact Or.inl (h2 ▸ h1)
  · exact Or.inl (h1 ▸ h2)
  · exact Or.inr ⟨h1.trans h2, idLe_trans h1' h2'⟩

theorem pairLe_antisymm {x y : ℚ × String} (h1 : pairLe x y) (h2 : pairLe y x) :
    x = y := by
  rcases h1 with h1 | ⟨h1, h1'⟩ <;> rcases h2 with h2 | ⟨h2, h2'⟩
  · exact absurd h2 (not_lt_of_gt h1)
  · exact absurd h1 (by simp [h2])
  · exact absurd h2 (by simp [h1])
  · exact Prod.ext h1 (idLe_antisymm h1' h2')

theorem pairLt_iff {x y : ℚ × String} : pairLt x y ↔ pairLe x y ∧ x ≠ y := by
  constructor
  · rintro (h | ⟨h, h'⟩)
    · exact ⟨Or.inl h, fun he => by simp [he] at h⟩
    · refine ⟨Or.inr ⟨h, (idLt_iff.1 h').1⟩, fun he => ?_⟩
      have := (idLt_iff.1 h').2
      exact this (congrArg Prod.snd he)
  · rintro ⟨h1 | ⟨h1, h1'⟩, h2⟩
    · exact Or.inl h1
    · refine Or.inr ⟨h1, idLt_iff.2 ⟨h1', fun he => h2 (Prod.ext h1 he)⟩⟩

theorem pairLt_irrefl (x : ℚ × String) : ¬ pairLt x x := fun h =>
  (pairLt_iff.1 h).2 rfl

theorem pairLe_of_pairLt {x y : ℚ × String} (h : pairLt x y) : pairLe x y :=
  (pairLt_iff.1 h).1

theorem pairLt_of_pairLe_of_ne {x y : ℚ × String} (h : pairLe x y) (hne : x ≠ y) :
    pairLt x y := pairLt_iff.2 ⟨h, hne⟩

theorem pairLt_or_gt_of_ne {x y : ℚ × String} (h : x ≠ y) :
    pairLt x y ∨ pairLt y x := by
  rcases pairLe_total x y with h1 | h1
  · exact Or.inl (pairLt_of_pairLe_of_ne h1 h)
  · exact Or.inr (pairLt_of_pairLe_of_ne h1 (Ne.symm h))

theorem pairLt_trans {x y z : ℚ × String} (h1 : pairLt x y) (h2 : pairLt y z) :
    pairLt x z := by
  have hle := pairLe_trans (pairLe_of_pairLt h1) (pairLe_of_pairLt h2)
  refine pairLt_of_pairLe_of_ne hle fun he => ?_
  subst he
  exact (pairLt_iff.1 h1).2 (pairLe_antisymm (pairLe_of_pairLt h1) (pairLe_of_pairLt h2))

theorem pairLe_score_le {x y : ℚ × String} (h : pairLe x y) : x.1 ≤ y.1 := by
  rcases h with h | ⟨h, _⟩
  · exact le_of_lt h
  · exact le_of_eq h

theorem pairLt_score_le {x y : ℚ × String} (h : pairLt x y) : x.1 ≤ y.1 :=
  pairLe_score_le (pairLe_of_pairLt h)

/-! ### Heap contents lemmas -/

theorem listMin_mem (x : ℚ × String) (xs : List (ℚ × String)) :
    listMin x xs ∈ x :: xs := by
  induction xs generalizing x with
  | nil => simp [listMin]
  | cons y ys ih =>
    rw [listMin]
    split
    · have := ih y
      simp only [List.mem_cons] at this ⊢
      tauto
    · have := ih x
      simp only [List.mem_cons] at this ⊢
      tauto

theorem listMin_le (x : ℚ × String) (xs : List (ℚ × String)) :
    ∀ z ∈ x :: xs, pairLe (listMin x xs) z := by
  induction xs generalizing x with
  | nil => simp [listMin, pairLe_refl]
  | cons y ys ih =>
    intro z hz
    rw [listMin]
    by_cases hxy : pairLe y x
    · rw [if_pos hxy]
      rcases List.mem_cons.1 hz with rfl | hz'
      · exact pairLe_trans (ih y y (by simp)) hxy
      · exact ih y z hz'
    · rw [if_neg hxy]
      rcases List.mem_cons.1 hz with rfl | hz'
      · exact ih z z (by simp)
      · rcases List.mem_cons.1 hz' with rfl | hz''
        · rcases pairLe_total z x with h | h
          · exact absurd h hxy
          · exact pairLe_trans (ih x x (by simp)) h
        · exact ih x z (by simp [hz''])

theorem removeMin_subset {x : ℚ × String} {heap : List (ℚ × String)} :
    ∀ y ∈ removeMin x heap, y ∈ x :: heap := fun _ hy =>
  List.mem_of_mem_erase hy

theorem removeMin_length (x : ℚ × String) (heap : List (ℚ × String)) :
    (removeMin x heap).length = heap.length := by
  rw [removeMin, List.length_erase_of_mem (listMin_mem x heap)]
  simp

theorem removeMin_nodup {x : ℚ × String} {heap : List (ℚ × String)}
    (h : (x :: heap).Nodup) : (removeMin x heap).Nodup := h.erase _

theorem mem_removeMin_of_ne {x y : ℚ × String} {heap : List (ℚ × String)}
    (h : (x :: heap).Nodup) (hy : y ∈ x :: heap) (hne : y ≠ listMin x heap) :
    y ∈ removeMin x heap := h.mem_erase_iff.2 ⟨hne, hy⟩

theorem not_mem_removeMin {x : ℚ × String} {heap : List (ℚ × String)}
    (h : (x :: heap).Nodup) : listMin x heap ∉ removeMin x heap := fun hmem =>
  (h.mem_erase_iff.1 hmem).1 rfl

theorem mem_of_subset_of_length_ge {α : Type} {l₁ l₂ : List α} (h1 : l₁.Nodup)
    (hsub : ∀ y ∈ l₁, y ∈ l₂) (hlen : l₂.length ≤ l₁.length) :
    ∀ z ∈ l₂, z ∈ l₁ := by
  have hsp : l₁.Subperm l₂ := h1.subperm hsub
  have hperm := hsp.perm_of_length_le hlen
  exact fun z hz => hperm.symm.subset hz

theorem heapAdd_inv {cap : Nat} {seen heap : List (ℚ × String)} {x : ℚ × String}
    (hx : x ∉ seen) (hinv : HeapInv cap seen heap) :
    HeapInv cap (seen ++ [x]) (heapAdd cap heap x) := by
  obtain ⟨hnd, hsub, hlen, hdom⟩ := hinv
  have hxh : x ∉ heap := fun hmem => hx (hsub x hmem)
  rw [heapAdd]
  by_cases hfull : heap.length < cap
  · rw [if_pos hfull]
    have hseenlt : seen.length < cap := by omega
    have hall : ∀ z ∈ seen, z ∈ heap := by
      have hlen' : seen.length ≤ heap.length := by omega
      exact mem_of_subset_of_length_ge hnd hsub hlen'
    refine ⟨List.nodup_cons.2 ⟨hxh, hnd⟩, ?_, ?_, ?_⟩
    · intro y hy
      rcases List.mem_cons.1 hy with rfl | hy'
      · simp
      · exact List.mem_append_left _ (hsub y hy')
    · have h1 : (seen ++ [x]).length = seen.length + 1 := by simp
      have h2 : (x :: heap).length = heap.length + 1 := rfl
      rw [h1, h2]
      omega
    · intro z hz hzh y _
      exfalso
      rcases List.mem_append.1 hz with hz' | hz'
      · exact hzh (List.mem_cons_of_mem _ (hall z hz'))
      · simp only [List.mem_singleton] at hz'
        subst hz'
        exact hzh (List.mem_cons_self _ _)
  · rw [if_neg hfull]
    have hcap : heap.length = cap := by omega
    have hcaple : cap ≤ seen.length := by omega
    have hndx : (x :: heap).Nodup := List.nodup_cons.2 ⟨hxh, hnd⟩
    have hmMem := listMin_mem x heap
    have hmLe := listMin_le x heap
    refine ⟨removeMin_nodup hndx, ?_, ?_, ?_⟩
    · intro y hy
      rcases List.mem_cons.1 (removeMin_subset y hy) with rfl | hy'
      · simp
      · exact List.mem_append_left _ (hsub y hy')
    · rw [removeMin_length]
      have h1 : (seen ++ [x]).length = seen.length + 1 := by simp
      rw [h1]
      omega
    · intro z hz hzr y hyr
      have hyx : y ∈ x :: heap := removeMin_subset y hyr
      have hym : y ≠ listMin x heap := fun he =>
        not_mem_removeMin hndx (he ▸ hyr)
      rcases List.mem_append.1 hz with hz' | hz'
      · by_cases hzheap : z ∈ heap
        · have hzm : z = listMin x heap := by
            by_contra hne
            exact hzr (mem_removeMin_of_ne hndx (List.mem_cons_of_mem _ hzheap) hne)
          rw [hzm]
          exact pairLt_of_pairLe_of_ne (hmLe y hyx) (Ne.symm hym)
        · have hdz := hdom z hz' hzheap
          rcases List.mem_cons.1 hyx with he | hyheap
          · have hmheap : listMin x heap ∈ heap := by
              rcases List.mem_cons.1 hmMem with he2 | h2
              · exact absurd (he2.trans he.symm).symm hym
              · exact h2
            exact pairLt_trans (hdz _ hmheap)
              (pairLt_of_pairLe_of_ne (hmLe y hyx) (Ne.symm hym))
          · exact hdz y hyheap
      · simp only [List.mem_singleton] at hz'
        subst hz'
        have hzm : z = listMin z heap := by
          by_contra hne
          exact hzr (mem_removeMin_of_ne hndx (List.mem_cons_self _ _) hne)
        rw [hzm]
        exact pairLt_of_pairLe_of_ne (hmLe y hyx) (Ne.symm hym)

theorem heapFold_inv (cap : Nat) (l : List (ℚ × String)) :
    ∀ (seen heap : List (ℚ × String)), (seen ++ l).Nodup →
      HeapInv cap seen heap → HeapInv cap (seen ++ l) (l.foldl (heapAdd cap) heap) := by
  induction l with
  | nil => intro seen heap _ hinv; simpa using hinv
  | cons x l' ih =>
    intro seen heap hnd hinv
    have hx : x ∉ seen := by
      have := List.disjoint_of_nodup_append hnd
      exact fun hmem => this hmem (List.mem_cons_self _ _)
    have hstep := heapAdd_inv hx hinv
    have hnd' : ((seen ++ [x]) ++ l').Nodup := by
      simpa [List.append_assoc] using hnd
    have := ih (seen ++ [x]) (heapAdd cap heap x) hnd' hstep
    simpa [List.append_assoc] using this

theorem heapFold_sel (cap : Nat) {l : List (ℚ × String)} (hnd : l.Nodup) :
    (l.foldl (heapAdd cap) []).Nodup ∧
      (∀ y ∈ l.foldl (heapAdd cap) [], y ∈ l) ∧
      (l.foldl (heapAdd cap) []).length = min cap l.length ∧
      ∀ z ∈ l, z ∉ l.foldl (heapAdd cap) [] →
        ∀ y ∈ l.foldl (heapAdd cap) [], pairLt z y := by
  have h0 : HeapInv cap [] [] := ⟨List.nodup_nil, by simp, by simp, by simp⟩
  have := heapFold_inv cap l [] [] (by simpa) h0
  simpa [HeapInv] using this

/-! ### Chunk-local top-k lemmas -/

theorem chunkTopk_subperm (k : Nat) (e : List (ℚ × String)) :
    (chunkTopk k e).Subperm e :=
  (List.take_sublist _ _).subperm.trans (List.perm_insertionSort scoreGe e).subperm

theorem chunkTopk_subset {k : Nat} {e : List (ℚ × String)} :
    ∀ y ∈ chunkTopk k e, y ∈ e := fun _ hy => (chunkTopk_subperm _ _).subset hy

theorem chunkTopk_length {k : Nat} {e : List (ℚ × String)} (h : k ≤ e.length) :
    (chunkTopk k e).length = k := by
  rw [chunkTopk, List.length_take, List.length_insertionSort]
  omega

theorem chunkTopk_nodup {k : Nat} {e : List (ℚ × String)} (h : e.Nodup) :
    (chunkTopk k e).Nodup :=
  (List.take_sublist _ _).nodup ((List.perm_insertionSort scoreGe e).nodup_iff.2 h)

theorem chunkTopk_score_le {k : Nat} {e : List (ℚ × String)} {x : ℚ × String}
    (hx : x ∈ e) (hnx : x ∉ chunkTopk k e) : ∀ y ∈ chunkTopk k e, x.1 ≤ y.1 := by
  intro y hy
  have hs : List.Sorted scoreGe (List.insertionSort scoreGe e) :=
    List.sorted_insertionSort scoreGe e
  have hxs : x ∈ List.insertionSort scoreGe e :=
    (List.perm_insertionSort scoreGe e).symm.subset hx
  have hxdrop : x ∈ (List.insertionSort scoreGe e).drop k := by
    have happ := List.take_append_drop k (List.insertionSort scoreGe e)
    have hxs' : x ∈ (List.insertionSort scoreGe e).take k ++
        (List.insertionSort scoreGe e).drop k := by rw [happ]; exact hxs
    rcases List.mem_append.1 hxs' with h | h
    · exact absurd h hnx
    · exact h
  exact hs.rel_of_mem_take_of_mem_drop hy hxdrop

/-! ### Chunking lemmas -/

theorem chunksOfFuel_flatten {α : Type} (c : Nat) (hc : 1 ≤ c) :
    ∀ (fuel : Nat) (l : List α), l.length ≤ fuel →
      (chunksOfFuel c fuel l).flatten = l := by
  intro fuel
  induction fuel with
  | zero =>
    intro l hl
    have : l = [] := List.length_eq_zero.1 (Nat.le_zero.1 hl)
    subst this
    rfl
  | succ n ih =>
    intro l hl
    cases l with
    | nil => rfl
    | cons a as =>
      show (List.take c (a :: as) :: chunksOfFuel c n (List.drop c (a :: as))).flatten
          = a :: as
      rw [List.flatten_cons, ih _ ?_]
      · exact List.take_append_drop c (a :: as)
      · rw [List.length_drop]
        simp only [List.length_cons] at hl ⊢
        omega

theorem chunksOf_flatten {α : Type} {c : Nat} (hc : 1 ≤ c) (l : List α) :
    (chunksOf c l).flatten = l :=
  chunksOfFuel_flatten c hc l.length l le_rfl

/-! ### Search loop lemmas -/

theorem subperm_append {α : Type} {l₁ l₂ r₁ r₂ : List α}
    (h1 : l₁.Subperm r₁) (h2 : l₂.Subperm r₂) : (l₁ ++ l₂).Subperm (r₁ ++ r₂) := by
  obtain ⟨u, hu, hsu⟩ := h1
  obtain ⟨v, hv, hsv⟩ := h2
  exact ⟨u ++ v, hu.append hv, hsu.append hsv⟩

theorem pushedFor_subperm (raw : Nat → Nat → RawScore) (k q : Nat) :
    ∀ chunks : List (List (Nat × String)),
      (pushedFor raw k q chunks).Subperm
        (chunks.flatten.map fun e => (sanitize (raw q e.1), e.2)) := by
  intro chunks
  induction chunks with
  | nil => simp [pushedFor]
  | cons ch rest ih =>
    simp only [pushedFor, List.map_cons, List.flatten_cons, List.map_append] at ih ⊢
    exact subperm_append (chunkTopk_subperm k (chunkEntries raw q ch)) ih

theorem stepChunk_getElem (raw : Nat → Nat → RawScore) (k : Nat)
    (ch : List (Nat × String)) (heaps : List (List (ℚ × String))) (q : Nat) :
    (stepChunk raw k ch heaps)[q]? =
      (heaps[q]?).map fun h => (chunkTopk k (chunkEntries raw q ch)).foldl (heapAdd k) h := by
  rw [stepChunk, List.getElem?_map, List.getElem?_enum]
  cases heaps[q]? <;> rfl

theorem stepChunk_length (raw : Nat → Nat → RawScore) (k : Nat)
    (ch : List (Nat × String)) (heaps : List (List (ℚ × String))) :
    (stepChunk raw k ch heaps).length = heaps.length := by
  rw [stepChunk, List.length_map, List.enum_length]

theorem foldl_stepChunk_getElem (raw : Nat → Nat → RawScore) (k : Nat) :
    ∀ (chunks : List (List (Nat × String))) (heaps : List (List (ℚ × String)))
      (q : Nat) (h : List (ℚ × String)), heaps[q]? = some h →
      (chunks.foldl (fun hs ch => stepChunk raw k ch hs) heaps)[q]? =
        some ((pushedFor raw k q chunks).foldl (heapAdd k) h) := by
  intro chunks
  induction chunks with
  | nil =>
    intro heaps q h hq
    simpa [pushedFor] using hq
  | cons ch rest ih =>
    intro heaps q h hq
    have h1 : (stepChunk raw k ch heaps)[q]? =
        some ((chunkTopk k (chunkEntries raw q ch)).foldl (heapAdd k) h) := by
      rw [stepChunk_getElem, hq]
      rfl
    have h2 := ih (stepChunk raw k ch heaps) q _ h1
    rw [List.foldl_cons, h2]
    simp [pushedFor, List.foldl_append]

theorem foldl_stepChunk_length (raw : Nat → Nat → RawScore) (k : Nat) :
    ∀ (chunks : List (List (Nat × String))) (heaps : List (List (ℚ × String))),
      (chunks.foldl (fun hs ch => stepChunk raw k ch hs) heaps).length = heaps.length := by
  intro chunks
  induction chunks with
  | nil => intro heaps; rfl
  | cons ch rest ih =>
    intro heaps
    rw [List.foldl_cons, ih, stepChunk_length]

theorem searchLoop_ok {raw : Nat → Nat → RawScore} {k : Nat} :
    ∀ (chunks : List (List (Nat × String))) (heaps heaps' : List (List (ℚ × String))),
      searchLoop raw k chunks heaps = .ok heaps' →
      (∀ ch ∈ chunks, k ≤ ch.length) ∧
        heaps' = chunks.foldl (fun hs ch => stepChunk raw k ch hs) heaps := by
  intro chunks
  induction chunks with
  | nil =>
    intro heaps heaps' h
    rw [searchLoop] at h
    exact ⟨by simp, by simpa using (Except.ok.inj h).symm⟩
  | cons ch rest ih =>
    intro heaps heaps' h
    rw [searchLoop] at h
    by_cases hk : k ≤ ch.length
    · rw [if_pos hk] at h
      obtain ⟨hall, hfold⟩ := ih _ _ h
      refine ⟨?_, by simpa using hfold⟩
      intro c hc
      rcases List.mem_cons.1 hc with rfl | hc'
      · exact hk
      · exact hall c hc'
    · rw [if_neg hk] at h
      exact absurd h (by simp)

/-- Characterization of a successful `search` call: the score-function and
emptiness guards passed, every chunk is at least `top_k` wide (otherwise
`torch.topk` would have raised), the result pairs the query ids in order with
the drained heaps, and each query's heap is the bounded-heap fold of the
chunk-local top-k selections. -/
theorem search_ok_char {sf : String} {qids cids : List String}
    {raw : Nat → Nat → RawScore} {k c : Nat}
    {res : List (String × List (ℚ × String))}
    (hok : search sf qids cids raw k c = .ok res) :
    1 ≤ c ∧ qids ≠ [] ∧ cids ≠ [] ∧
      (∀ ch ∈ chunksOf c cids.enum, k ≤ ch.length) ∧
      res.map Prod.fst = qids ∧
      ∀ (q : Nat) (qid : String) (h : List (ℚ × String)), res[q]? = some (qid, h) →
        h = (pushedFor raw k q (chunksOf c cids.enum)).foldl (heapAdd k) [] := by
  rw [search] at hok
  by_cases h1 : sf = "cos_sim" ∨ sf = "dot"
  · rw [if_pos h1] at hok
    by_cases h2 : qids.isEmpty
    · rw [if_pos h2] at hok
      exact absurd hok (by simp)
    · rw [if_neg h2] at hok
      by_cases h3 : cids.isEmpty
      · rw [if_pos h3] at hok
        exact absurd hok (by simp)
      · rw [if_neg h3] at hok
        by_cases h4 : c = 0
        · rw [if_pos h4] at hok
          exact absurd hok (by simp)
        · rw [if_neg h4] at hok
          cases hml : searchLoop raw k (chunksOf c cids.enum) (qids.map fun _ => []) with
          | error e => rw [hml] at hok; exact absurd hok (by simp)
          | ok heaps =>
            rw [hml] at hok
            have hres : res = qids.zip heaps := (Except.ok.inj hok).symm
            obtain ⟨hall, hfold⟩ := searchLoop_ok _ _ _ hml
            have hlen : heaps.length = qids.length := by
              rw [hfold, foldl_stepChunk_length, List.length_map]
            refine ⟨by omega, fun he => h2 (by simp [he]), fun he => h3 (by simp [he]),
              hall, ?_, ?_⟩
            · rw [hres]
              exact List.map_fst_zip qids heaps (le_of_eq hlen.symm)
            · intro q qid h hq
              rw [hres] at hq
              have hq2 : heaps[q]? = some h := (List.getElem?_zip_eq_some.1 hq).2
              have hq0 : (qids.map fun _ => ([] : List (ℚ × String)))[q]? = some [] := by
                have hqlt : q < heaps.length := by
                  rcases List.getElem?_eq_some_iff.1 hq2 with ⟨hlt, _⟩
                  exact hlt
                rw [List.getElem?_map]
                have : qids[q]? = some (qids.get ⟨q, by omega⟩) := by
                  rw [List.getElem?_eq_some_iff]
                  exact ⟨by omega, rfl⟩
                rw [this]
                rfl
              have := foldl_stepChunk_getElem raw k (chunksOf c cids.enum) _ q [] hq0
              rw [← hfold] at this
              rw [hq2] at this
              exact Option.some.inj this
  · rw [if_neg h1] at hok
    exact absurd hok (by simp)

theorem allEntries_map_snd (raw : Nat → Nat → RawScore) (q : Nat) (cids : List String) :
    (allEntries raw q cids).map Prod.snd = cids := by
  rw [allEntries, List.map_map]
  rw [List.map_congr_left (fun a _ => rfl :
    ∀ a ∈ cids.enum, (Prod.snd ∘ fun e : Nat × String =>
      (sanitize (raw q e.1), e.2)) a = Prod.snd a)]
  exact List.enum_map_snd cids

theorem allEntries_nodup {raw : Nat → Nat → RawScore} {q : Nat} {cids : List String}
    (hnd : cids.Nodup) : (allEntries raw q cids).Nodup :=
  List.Nodup.of_map Prod.snd (by rw [allEntries_map_snd]; exact hnd)

theorem mem_allEntries {raw : Nat → Nat → RawScore} {q : Nat} {cids : List String}
    {s : ℚ} {cid : String} :
    (s, cid) ∈ allEntries raw q cids ↔
      ∃ i, cids[i]? = some cid ∧ s = sanitize (raw q i) := by
  constructor
  · intro h
    obtain ⟨e, hmem, heq⟩ := List.mem_map.1 h
    obtain ⟨hlt, hx⟩ := List.mem_enum hmem
    refine ⟨e.1, ?_, ?_⟩
    · have h1 : cid = e.2 := (congrArg Prod.snd heq).symm
      rw [List.getElem?_eq_some_iff]
      exact ⟨hlt, by rw [← hx, h1]⟩
    · exact (congrArg Prod.fst heq).symm
  · rintro ⟨i, hi, rfl⟩
    obtain ⟨hlt, hx⟩ := List.getElem?_eq_some_iff.1 hi
    have henum : (i, cid) ∈ cids.enum := by
      have hs : cids.enum[i]? = some (i, cid) := by
        rw [List.getElem?_enum, List.getElem?_eq_some_iff.2 ⟨hlt, hx⟩]
        rfl
      exact List.getElem?_mem hs
    exact List.mem_map.2 ⟨(i, cid), henum, rfl⟩

theorem pushedFor_subperm_all {raw : Nat → Nat → RawScore} {k q c : Nat}
    {cids : List String} (hc : 1 ≤ c) :
    (pushedFor raw k q (chunksOf c cids.enum)).Subperm (allEntries raw q cids) := by
  have := pushedFor_subperm raw k q (chunksOf c cids.enum)
  rwa [chunksOf_flatten hc] at this

theorem subperm_nodup {α : Type} {l₁ l₂ : List α} (h : l₁.Subperm l₂)
    (hnd : l₂.Nodup) : l₁.Nodup := by
  obtain ⟨u, hu, hsu⟩ := h
  exact hu.nodup_iff.1 (hsu.nodup hnd)

theorem chunksOfFuel_sublist {α : Type} (c : Nat) :
    ∀ (fuel : Nat) (l ch : List α), ch ∈ chunksOfFuel c fuel l → ch.Sublist l := by
  intro fuel
  induction fuel with
  | zero => intro l ch h; simp [chunksOfFuel] at h
  | succ n ih =>
    intro l ch h
    cases l with
    | nil => simp [chunksOfFuel] at h
    | cons a as =>
      rcases List.mem_cons.1 h with rfl | h'
      · exact List.take_sublist c (a :: as)
      · exact (ih _ ch h').trans (List.drop_sublist c (a :: as))

theorem chunksOf_mem_sublist {α : Type} {c : Nat} {l ch : List α}
    (h : ch ∈ chunksOf c l) : ch.Sublist l :=
  chunksOfFuel_sublist c l.length l ch h

theorem chunkEntries_nodup {raw : Nat → Nat → RawScore} {q : Nat}
    {cids : List String} {ch : List (Nat × String)} (hnd : cids.Nodup)
    (hch : ch.Sublist cids.enum) : (chunkEntries raw q ch).Nodup := by
  have h1 : (chunkEntries raw q ch).map Prod.snd = ch.map Prod.snd := by
    rw [chunkEntries, List.map_map]
    exact List.map_congr_left fun a _ => rfl
  have h2 : (ch.map Prod.snd).Sublist cids := by
    have := hch.map Prod.snd
    rwa [List.enum_map_snd] at this
  exact List.Nodup.of_map Prod.snd (h1 ▸ h2.nodup hnd)

theorem mem_pushedFor_of_sel {raw : Nat → Nat → RawScore} {k q : Nat}
    {chunks : List (List (Nat × String))} {ch : List (Nat × String)}
    {y : ℚ × String} (hch : ch ∈ chunks) (hy : y ∈ chunkTopk k (chunkEntries raw q ch)) :
    y ∈ pushedFor raw k q chunks := by
  rw [pushedFor, List.mem_flatten]
  exact ⟨chunkTopk k (chunkEntries raw q ch), List.mem_map.2 ⟨ch, hch, rfl⟩, hy⟩

/-- Facts about one query's drained heap after a successful `search` call with
duplicate-free corpus ids: it is duplicate-free, holds exactly `top_k` entries,
every entry is the sanitized score of its corpus item, and the sanitized score
of every corpus item that did NOT make it into the heap is at most every score
that did (the bounded heap keeps a top-`top_k` selection). -/
theorem search_heap_facts {sf : String} {qids cids : List String}
    {raw : Nat → Nat → RawScore} {k c : Nat}
    {res : List (String × List (ℚ × String))}
    (hok : search sf qids cids raw k c = .ok res) (hnd : cids.Nodup)
    {q : Nat} {qid : String} {hp : List (ℚ × String)}
    (hres : res[q]? = some (qid, hp)) :
    hp.Nodup ∧ hp.length = k ∧
      (∀ p ∈ hp, ∃ i, cids[i]? = some p.2 ∧ p.1 = sanitize (raw q i)) ∧
      ∀ i cid, cids[i]? = some cid → (∀ p ∈ hp, p.2 ≠ cid) →
        ∀ y ∈ hp, sanitize (raw q i) ≤ y.1 := by
  obtain ⟨hc, hqne, hcne, hall, hmap, hfold⟩ := search_ok_char hok
  have hhp : hp = (pushedFor raw k q (chunksOf c cids.enum)).foldl (heapAdd k) [] :=
    hfold q qid hp hres
  have hsub : (pushedFor raw k q (chunksOf c cids.enum)).Subperm (allEntries raw q cids) :=
    pushedFor_subperm_all hc
  have hLnd : (pushedFor raw k q (chunksOf c cids.enum)).Nodup :=
    subperm_nodup hsub (allEntries_nodup hnd)
  obtain ⟨hFnd, hFsub, hFlen, hFdom⟩ := heapFold_sel k hLnd
  rw [← hhp] at hFnd hFsub hFlen hFdom
  have hplen : hp.length = k := by
    rw [hFlen]
    have hLge : k ≤ (pushedFor raw k q (chunksOf c cids.enum)).length := by
      cases hchunks : chunksOf c cids.enum with
      | nil =>
        exfalso
        have := chunksOf_flatten hc cids.enum
        rw [hchunks] at this
        have henil : cids.enum = [] := this.symm
        have : cids = [] := by
          have := congrArg (List.map Prod.snd) henil
          rwa [List.enum_map_snd] at this
        exact hcne this
      | cons ch0 rest =>
        have hk0 : k ≤ ch0.length := by
          rw [hchunks] at hall
          exact hall ch0 (List.mem_cons_self _ _)
        have : (chunkTopk k (chunkEntries raw q ch0)).length = k :=
          chunkTopk_length (by rw [chunkEntries, List.length_map]; exact hk0)
        rw [pushedFor, List.map_cons, List.flatten_cons, List.length_append, this]
        omega
    omega
  refine ⟨hFnd, hplen, ?_, ?_⟩
  · intro p hp'
    have hpL := hFsub p hp'
    have hpA : p ∈ allEntries raw q cids := hsub.subset hpL
    obtain ⟨i, hi, hs⟩ := mem_allEntries.1 hpA
    exact ⟨i, hi, hs⟩
  · intro i cid hci hnone y hy
    by_contra hgt
    push_neg at hgt
    have hiA : (sanitize (raw q i), cid) ∈ allEntries raw q cids :=
      mem_allEntries.2 ⟨i, hci, rfl⟩
    have henum : (i, cid) ∈ cids.enum := by
      obtain ⟨hlt, hx⟩ := List.getElem?_eq_some_iff.1 hci
      have hs : cids.enum[i]? = some (i, cid) := by
        rw [List.getElem?_enum, List.getElem?_eq_some_iff.2 ⟨hlt, hx⟩]
        rfl
      exact List.getElem?_mem hs
    have hflat : (i, cid) ∈ (chunksOf c cids.enum).flatten := by
      rw [chunksOf_flatten hc]
      exact henum
    obtain ⟨ch, hch, hichunk⟩ := List.mem_flatten.1 hflat
    have hentry : (sanitize (raw q i), cid) ∈ chunkEntries raw q ch :=
      List.mem_map.2 ⟨(i, cid), hichunk, rfl⟩
    have hnotF : (sanitize (raw q i), cid) ∉ hp := fun hmem => hnone _ hmem rfl
    by_cases hinsel : (sanitize (raw q i), cid) ∈ chunkTopk k (chunkEntries raw q ch)
    · have hinL : (sanitize (raw q i), cid) ∈ pushedFor raw k q (chunksOf c cids.enum) :=
        mem_pushedFor_of_sel hch hinsel
      have hle := pairLt_score_le (hFdom _ hinL hnotF y hy)
      exact absurd hle (not_le.2 hgt)
    · have hscore : ∀ z ∈ chunkTopk k (chunkEntries raw q ch), sanitize (raw q i) ≤ z.1 :=
        chunkTopk_score_le hentry hinsel
      have hselhp : ∀ z ∈ chunkTopk k (chunkEntries raw q ch), z ∈ hp := by
        intro z hz
        by_contra hzf
        have hzL : z ∈ pushedFor raw k q (chunksOf c cids.enum) :=
          mem_pushedFor_of_sel hch hz
        have hzy := pairLt_score_le (hFdom _ hzL hzf y hy)
        have := le_trans (hscore z hz) hzy
        exact absurd this (not_le.2 hgt)
      have hynotsel : y ∉ chunkTopk k (chunkEntries raw q ch) := fun hysel =>
        absurd (hscore y hysel) (not_le.2 hgt)
      have hselnd : (chunkTopk k (chunkEntries raw q ch)).Nodup :=
        chunkTopk_nodup (chunkEntries_nodup hnd (chunksOf_mem_sublist hch))
      have hsellen : (chunkTopk k (chunkEntries raw q ch)).length = k :=
        chunkTopk_length (by rw [chunkEntries, List.length_map]; exact hall ch hch)
      have hconsnd : (y :: chunkTopk k (chunkEntries raw q ch)).Nodup :=
        List.nodup_cons.2 ⟨hynotsel, hselnd⟩
      have hconssub : ∀ z ∈ y :: chunkTopk k (chunkEntries raw q ch), z ∈ hp := by
        intro z hz
        rcases List.mem_cons.1 hz with rfl | hz'
        · exact hy
        · exact hselhp z hz'
      have hsp : (y :: chunkTopk k (chunkEntries raw q ch)).Subperm hp :=
        hconsnd.subperm hconssub
      have hlen := hsp.length_le
      rw [List.length_cons, hsellen, hplen] at hlen
      omega

/-- Chunk invariance, in the regime where the code does not crash: two
successful `search` runs over the same data that differ only in the chunk size
select the same `(score, corpus_id)` set for each query, provided corpus ids
are unique and the query's sanitized scores are pairwise distinct.  (With tied
scores the chunk-local tie-break may differ between chunkings, and with a chunk
narrower than `top_k` the code raises instead of returning.) -/
theorem search_chunk_invariance {sf : String} {qids cids : List String}
    {raw : Nat → Nat → RawScore} {k c1 c2 : Nat}
    {res1 res2 : List (String × List (ℚ × String))}
    (hok1 : search sf qids cids raw k c1 = .ok res1)
    (hok2 : search sf qids cids raw k c2 = .ok res2)
    (hnd : cids.Nodup)
    {q : Nat} {qid1 qid2 : String} {hp1 hp2 : List (ℚ × String)}
    (h1 : res1[q]? = some (qid1, hp1)) (h2 : res2[q]? = some (qid2, hp2))
    (hinj : ∀ i j, i < cids.length → j < cids.length →
      sanitize (raw q i) = sanitize (raw q j) → i = j) :
    hp1.toFinset = hp2.toFinset := by
  obtain ⟨hnd1, hlen1, hent1, hdom1⟩ := search_heap_facts hok1 hnd h1
  obtain ⟨hnd2, hlen2, hent2, hdom2⟩ := search_heap_facts hok2 hnd h2
  have hcard1 : hp1.toFinset.card = k := by
    rw [List.toFinset_card_of_nodup hnd1, hlen1]
  have hcard2 : hp2.toFinset.card = k := by
    rw [List.toFinset_card_of_nodup hnd2, hlen2]
  have hid_unique : ∀ (i j : Nat) (cid : String),
      cids[i]? = some cid → cids[j]? = some cid → i = j := by
    intro i j cid hi hj
    obtain ⟨hlti, hxi⟩ := List.getElem?_eq_some_iff.1 hi
    obtain ⟨hltj, hxj⟩ := List.getElem?_eq_some_iff.1 hj
    exact (List.Nodup.getElem_inj_iff hnd).1 (hxi.trans hxj.symm)
  have key : ∀ {ha : List (ℚ × String)} {hb : List (ℚ × String)},
      (∀ p ∈ ha, ∃ i, cids[i]? = some p.2 ∧ p.1 = sanitize (raw q i)) →
      (∀ p ∈ hb, ∃ i, cids[i]? = some p.2 ∧ p.1 = sanitize (raw q i)) →
      (∀ i cid, cids[i]? = some cid → (∀ p ∈ hb, p.2 ≠ cid) →
        ∀ y ∈ hb, sanitize (raw q i) ≤ y.1) →
      ∀ p ∈ ha, p ∉ hb → ∀ y ∈ hb, p.1 ≤ y.1 := by
    intro ha hb henta hentb hdomb p hpa hpb y hyb
    obtain ⟨i, hci, hs⟩ := henta p hpa
    have hnosame : ∀ r ∈ hb, r.2 ≠ p.2 := by
      intro r hrb hsame
      obtain ⟨j, hcj, hs'⟩ := hentb r hrb
      have hij : j = i := hid_unique j i p.2 (hsame ▸ hcj) hci
      have : r = p := by
        have hr1 : r.1 = p.1 := by rw [hs, hs', hij]
        exact Prod.ext hr1 hsame
      exact hpb (this ▸ hrb)
    have := hdomb i p.2 hci hnosame y hyb
    rwa [← hs] at this
  refine Finset.eq_of_subset_of_card_le ?_ (by omega)
  intro p hpmem
  rw [List.mem_toFinset] at hpmem ⊢
  by_contra hpb
  have hnsub : ¬ hp2.toFinset ⊆ hp1.toFinset := by
    intro hsub
    have heqf : hp2.toFinset = hp1.toFinset :=
      Finset.eq_of_subset_of_card_le hsub (by omega)
    have hmem2 : p ∈ hp2.toFinset := by
      rw [heqf]
      exact List.mem_toFinset.2 hpmem
    exact hpb (List.mem_toFinset.1 hmem2)
  obtain ⟨r, hr2, hr1⟩ := Finset.not_subset.1 hnsub
  rw [List.mem_toFinset] at hr2
  have hr1' : r ∉ hp1 := fun hmem => hr1 (List.mem_toFinset.2 hmem)
  have hpr : p.1 ≤ r.1 := key hent1 hent2 hdom2 p hpmem hpb r hr2
  have hrp : r.1 ≤ p.1 := key hent2 hent1 hdom1 r hr2 hr1' p hpmem
  have heq1 : p.1 = r.1 := le_antisymm hpr hrp
  obtain ⟨i, hci, hsi⟩ := hent1 p hpmem
  obtain ⟨j, hcj, hsj⟩ := hent2 r hr2
  have hij : i = j := by
    apply hinj i j (List.getElem?_eq_some_iff.1 hci).1 (List.getElem?_eq_some_iff.1 hcj).1
    rw [← hsi, ← hsj]
    exact heq1
  have hpid : p.2 = r.2 := by
    rw [hij] at hci
    exact Option.some.inj (hci.symm.trans hcj)
  exact hpb (Prod.ext heq1 hpid ▸ hr2)

/-! ### Evaluator lemmas -/

theorem applyIgnore_map_fst (flag : Bool) (results : ResultSet) :
    (applyIgnore flag results).map Prod.fst = results.map Prod.fst := by
  cases flag <;> simp [applyIgnore]

theorem scoredIds_nodup {qrels : Qrels} {results : ResultSet} {flag : Bool}
    (hnd : (results.map Prod.fst).Nodup) :
    (scoredIds qrels (applyIgnore flag results)).Nodup := by
  rw [scoredIds, applyIgnore_map_fst]
  exact hnd.filter _

theorem evaluate_abstention_ok (conf : List ℚ → List (String × ℚ))
    (nauc : List ℚ → List ℚ → ℚ) {results : ResultSet}
    (ms : List (String × List ℚ)) (hne : results ≠ []) :
    ∃ n, evaluate_abstention conf nauc results ms = .ok n := by
  cases results with
  | nil => exact absurd rfl hne
  | cons r0 rest => exact ⟨_, rfl⟩

theorem applyIgnore_ne_nil {flag : Bool} {results : ResultSet} {qrels : Qrels}
    (hne : scoredIds qrels (applyIgnore flag results) ≠ []) :
    applyIgnore flag results ≠ [] := by
  intro h
  apply hne
  rw [scoredIds, h]
  rfl

theorem listMean_eq_meanOverScored (f : String → ℚ) {qs : List String}
    (hnd : qs.Nodup) :
    (qs.map f).sum / (qs.length : ℚ) = meanOverScored f qs := by
  rw [meanOverScored, List.sum_toFinset _ hnd, List.toFinset_card_of_nodup hnd]

theorem evaluate_ok_means (trec : String → Nat → String → ℚ)
    (conf : List ℚ → List (String × ℚ)) (nauc : List ℚ → List ℚ → ℚ)
    (qrels : Qrels) (results : ResultSet) (kValues : List Nat) (flag : Bool)
    (hnd : (results.map Prod.fst).Nodup)
    (hne : scoredIds qrels (applyIgnore flag results) ≠ []) :
    ∃ out, evaluate trec conf nauc qrels results kValues flag = .ok out ∧
      out.ndcg = kValues.map (fun k => ("NDCG@" ++ toString k,
        round5 (meanOverScored (trec "ndcg_cut" k)
          (scoredIds qrels (applyIgnore flag results))))) ∧
      out.map = kValues.map (fun k => ("MAP@" ++ toString k,
        round5 (meanOverScored (trec "map_cut" k)
          (scoredIds qrels (applyIgnore flag results))))) ∧
      out.recallK = kValues.map (fun k => ("Recall@" ++ toString k,
        round5 (meanOverScored (trec "recall" k)
          (scoredIds qrels (applyIgnore flag results))))) ∧
      out.precision = kValues.map (fun k => ("P@" ++ toString k,
        round5 (meanOverScored (trec "P" k)
          (scoredIds qrels (applyIgnore flag results))))) := by
  have hqnd : (scoredIds qrels (applyIgnore flag results)).Nodup := scoredIds_nodup hnd
  have hres : applyIgnore flag results ≠ [] := applyIgnore_ne_nil hne
  have hmean : ∀ (m : String) (k : Nat),
      ((scoredIds qrels (applyIgnore flag results)).map fun qid => trec m k qid).sum /
          ((scoredIds qrels (applyIgnore flag results)).length : ℚ) =
        meanOverScored (trec m k) (scoredIds qrels (applyIgnore flag results)) :=
    fun m k => listMean_eq_meanOverScored (trec m k) hqnd
  cases hk : kValues.isEmpty with
  | true =>
    have hkv : kValues = [] := List.isEmpty_iff.1 hk
    subst hkv
    obtain ⟨n, hn⟩ := evaluate_abstention_ok conf nauc [] hres
    refine ⟨⟨[], [], [], [], n⟩, ?_, by simp, by simp, by simp, by simp⟩
    simp only [evaluate, List.isEmpty_nil, if_true, hn]
  | false =>
    have hqs : (scoredIds qrels (applyIgnore flag results)).isEmpty = false := by
      cases hsc : scoredIds qrels (applyIgnore flag results) with
      | nil => exact absurd hsc hne
      | cons a as => rfl
    obtain ⟨n, hn⟩ := evaluate_abstention_ok conf nauc
      ((kValues.map fun k => ("NDCG@" ++ toString k,
          (scoredIds qrels (applyIgnore flag results)).map fun qid => trec "ndcg_cut" k qid)) ++
        (kValues.map fun k => ("MAP@" ++ toString k,
          (scoredIds qrels (applyIgnore flag results)).map fun qid => trec "map_cut" k qid)) ++
        (kValues.map fun k => ("Recall@" ++ toString k,
          (scoredIds qrels (applyIgnore flag results)).map fun qid => trec "recall" k qid)) ++
        (kValues.map fun k => ("P@" ++ toString k,
          (scoredIds qrels (applyIgnore flag results)).map fun qid => trec "P" k qid))) hres
    have hEv : evaluate trec conf nauc qrels results kValues flag = .ok
        ⟨kValues.map fun k => ("NDCG@" ++ toString k,
            round5 (((scoredIds qrels (applyIgnore flag results)).map
              fun qid => trec "ndcg_cut" k qid).sum /
              ((scoredIds qrels (applyIgnore flag results)).length : ℚ))),
          kValues.map fun k => ("MAP@" ++ toString k,
            round5 (((scoredIds qrels (applyIgnore flag results)).map
              fun qid => trec "map_cut" k qid).sum /
              ((scoredIds qrels (applyIgnore flag results)).length : ℚ))),
          kValues.map fun k => ("Recall@" ++ toString k,
            round5 (((scoredIds qrels (applyIgnore flag results)).map
              fun qid => trec "recall" k qid).sum /
              ((scoredIds qrels (applyIgnore flag results)).length : ℚ))),
          kValues.map fun k => ("P@" ++ toString k,
            round5 (((scoredIds qrels (applyIgnore flag results)).map
              fun qid => trec "P" k qid).sum /
              ((scoredIds qrels (applyIgnore flag results)).length : ℚ))),
          n⟩ := by
      simp only [evaluate, hk, Bool.false_eq_true, if_false, hqs, hn]
    refine ⟨_, hEv, ?_, ?_, ?_, ?_⟩
    · exact List.map_congr_left fun k _ => by rw [hmean "ndcg_cut" k]
    · exact List.map_congr_left fun k _ => by rw [hmean "map_cut" k]
    · exact List.map_congr_left fun k _ => by rw [hmean "recall" k]
    · exact List.map_congr_left fun k _ => by rw [hmean "P" k]

/-! ### Heap tie-break -/

/-- Claim C9: when an incoming candidate `(s, a)` ties in score with the heap
minimum `(s, b)` of a full top-k heap, `heappushpop` breaks the tie through
Python tuple comparison `(score, corpus_id)`: the pair with the
lexicographically smaller corpus id is evicted and the pair with the greater id
is retained, deterministically. -/
theorem C9_tied_scores_break_by_corpus_id {cap : Nat}
    {heap : List (ℚ × String)} {s : ℚ} {a b : String}
    (hfull : heap.length = cap) (hnd : heap.Nodup)
    (hmem : (s, b) ∈ heap) (hmin : ∀ y ∈ heap, pairLe (s, b) y)
    (hab : a ≠ b) (hnotin : (s, a) ∉ heap) :
    (idLt b a → (s, a) ∈ heapAdd cap heap (s, a) ∧ (s, b) ∉ heapAdd cap heap (s, a)) ∧
      (idLt a b → (s, b) ∈ heapAdd cap heap (s, a) ∧ (s, a) ∉ heapAdd cap heap (s, a)) := by
  have hlen1 : 1 ≤ heap.length := List.length_pos.2 (List.ne_nil_of_mem hmem)
  have hnotlt : ¬ heap.length < cap := by omega
  have hndx : ((s, a) :: heap).Nodup := List.nodup_cons.2 ⟨hnotin, hnd⟩
  have hmLe := listMin_le (s, a) heap
  have hmMem := listMin_mem (s, a) heap
  have hne : (s, a) ≠ (s, b) := fun he => hab (congrArg Prod.snd he)
  constructor
  · intro hba
    have hble : pairLe (s, b) (s, a) := Or.inr ⟨rfl, (idLt_iff.1 hba).1⟩
    have hmb : listMin (s, a) heap = (s, b) := by
      apply pairLe_antisymm
      · exact hmLe (s, b) (List.mem_cons_of_mem _ hmem)
      · rcases List.mem_cons.1 hmMem with he | hh
        · rw [he]; exact hble
        · exact hmin _ hh
    rw [heapAdd, if_neg hnotlt]
    constructor
    · exact mem_removeMin_of_ne hndx (List.mem_cons_self _ _) (by rw [hmb]; exact hne)
    · intro hmem'
      exact not_mem_removeMin hndx (by rw [hmb]; exact hmem')
  · intro hab'
    have hale : pairLe (s, a) (s, b) := Or.inr ⟨rfl, (idLt_iff.1 hab').1⟩
    have hma : listMin (s, a) heap = (s, a) := by
      apply pairLe_antisymm
      · exact hmLe (s, a) (List.mem_cons_self _ _)
      · rcases List.mem_cons.1 hmMem with he | hh
        · rw [he]; exact pairLe_refl _
        · exact pairLe_trans hale (hmin _ hh)
    rw [heapAdd, if_neg hnotlt]
    constructor
    · exact mem_removeMin_of_ne hndx (List.mem_cons_of_mem _ hmem)
        (by rw [hma]; exact hne.symm)
    · intro hmem'
      exact not_mem_removeMin hndx (by rw [hma]; exact hmem')

theorem getElem?_inj_of_nodup {l : List String} (hnd : l.Nodup) {i j : Nat}
    {x : String} (hi : l[i]? = some x) (hj : l[j]? = some x) : i = j := by
  obtain ⟨hlti, hxi⟩ := List.getElem?_eq_some_iff.1 hi
  obtain ⟨hltj, hxj⟩ := List.getElem?_eq_some_iff.1 hj
  exact (List.Nodup.getElem_inj_iff hnd).1 (hxi.trans hxj.symm)

/-! ### Claim theorems -/

/-- Claim C1 (code bug): chunking is not transparent.  On a 3-item corpus with
`top_k = 2`, the one-shot run (chunk size 3) returns the global top-2, but the
same inputs with chunk size 1 crash: `torch.topk(cos_scores, top_k, dim=1)`
(line 200) raises `RuntimeError` whenever `top_k` exceeds the chunk width —
the upstream beir code this was adapted from guards with
`min(top_k + 1, len(cos_scores[1]))`, this code passes `top_k` unguarded.  So
the Result Set is not invariant under the chunkings the spec quantifies over
(chunk sizes {1, 2, 3} on a 3-item corpus). -/
theorem C1_chunk_size_one_crashes_while_one_shot_succeeds :
    search "cos_sim" ["q1"] ["d1", "d2", "d3"] threeScores 2 3 =
        .ok [("q1", [(2, "d2"), (3, "d1")])] ∧
      search "cos_sim" ["q1"] ["d1", "d2", "d3"] threeScores 2 1 =
        .error .topkOutOfRange :=
  ⟨rfl, rfl⟩

/-- Claim C2 (code bug): for a corpus smaller than `top_k`, `search` does not
return all `N` items per query; `torch.topk` with `k = 2` over a one-item
chunk raises (default chunk size 20000, corpus of one item).  With
`top_k = 1 ≤ N` the same corpus is returned in full, for contrast. -/
theorem C2_corpus_smaller_than_topk_crashes :
    search "cos_sim" ["q1"] ["d1"] threeScores 2 20000 = .error .topkOutOfRange ∧
      search "cos_sim" ["q1"] ["d1"] threeScores 1 20000 = .ok [("q1", [(3, "d1")])] :=
  ⟨rfl, rfl⟩

/-- Claim C3 (counterexample): with disjoint qrels/results id sets the
evaluator fails with Python's `ZeroDivisionError` coming from the unguarded
`sum(...) / len(scores)` at line 350 — not with the explicit `NoScoredQueries`
error the claim asserts. -/
theorem C3_counterexample :
    evaluate (fun _ _ _ => 0) (fun _ => []) (fun _ _ => 0)
        [("q1", [("d1", 1)])] [("q2", [("d1", 1)])] [1] false =
        .error .zeroDivisionError ∧
      evaluate (fun _ _ _ => 0) (fun _ => []) (fun _ _ => 0)
        [("q1", [("d1", 1)])] [("q2", [("d1", 1)])] [1] false ≠
        .error .noScoredQueries := by
  exact ⟨rfl, by decide⟩

/-- Claim C3 (amended): whenever the scored-query set (the qrels/results id
intersection) is empty and at least one cutoff is requested, `evaluate` fails
with the division-by-zero error of `sum(...) / len(scores)`; it never returns
a NaN mean and never raises a `NoScoredQueries` error (no code path produces
one). -/
theorem C3_empty_intersection_is_zero_division (trec : String → Nat → String → ℚ)
    (conf : List ℚ → List (String × ℚ)) (nauc : List ℚ → List ℚ → ℚ)
    (qrels : Qrels) (results : ResultSet) (kValues : List Nat) (flag : Bool)
    (hdisj : scoredIds qrels (applyIgnore flag results) = []) (hk : kValues ≠ []) :
    evaluate trec conf nauc qrels results kValues flag = .error .zeroDivisionError := by
  have hkemp : kValues.isEmpty = false := by
    cases kValues with
    | nil => exact absurd rfl hk
    | cons a as => rfl
  simp only [evaluate, hkemp, Bool.false_eq_true, if_false, hdisj, List.isEmpty_nil,
    if_true]

theorem C3_empty_intersection_witness :
    evaluate (fun _ _ _ => 0) (fun _ => []) (fun _ _ => 0)
        [("q1", [("d1", 1)])] [("q3", [("d1", 1)])] [1] false =
        .error .zeroDivisionError :=
  C3_empty_intersection_is_zero_division _ _ _ _ _ _ _ (by decide) (by decide)

/-- Claim C4: with `ignore_identical_ids=true`, every `(qid, pid)` pair with
`qid == pid` is removed from the results before scoring (`evaluate` consumes
`applyIgnore ignoreIdenticalIds results`, the embedding of lines 304-312), so
no mapping used for metric computation contains a self-match; with the default
`false`, results pass through unchanged and self-matches count. -/
theorem C4_self_match_filter (results : ResultSet) (qid : String)
    (rels : List (String × ℚ)) (h : (qid, rels) ∈ applyIgnore true results) :
    (∀ p ∈ rels, p.1 ≠ qid) ∧ applyIgnore false results = results := by
  constructor
  · intro p hp
    have h2 : ∃ a b, (a, b) ∈ results ∧ a = qid ∧
        List.filter (fun e => !decide (e.1 = a)) b = rels := by
      simpa [applyIgnore] using h
    obtain ⟨a, b, hab, haq, hbr⟩ := h2
    rw [← hbr] at hp
    have hpred := List.of_mem_filter hp
    rw [← haq]
    simpa using hpred
  · simp [applyIgnore]

theorem C4_self_match_filter_witness :
    (∀ p ∈ [(("d1" : String), (2 : ℚ))], p.1 ≠ "q1") ∧
      applyIgnore false [("q1", [("q1", 1), ("d1", 2)])] =
        [("q1", [("q1", 1), ("d1", 2)])] :=
  C4_self_match_filter [("q1", [("q1", 1), ("d1", 2)])] "q1" [("d1", 2)] (by decide)

/-- Claim C5 (counterexample): a NaN score, once replaced by the sentinel -1,
CAN win a top-k slot while a valid-score alternative exists: with dot-product
scores, corpus item d1 scores NaN (sanitized to -1) and d2 scores -5, a
legitimate dot product; with `top_k = 1` the NaN item d1 is selected into the
Result Set and the valid item d2 is not. -/
theorem C5_counterexample :
    search "dot" ["q1"] ["d1", "d2"] nanVsNegFive 1 2 = .ok [("q1", [(-1, "d1")])] ∧
      nanVsNegFive 0 0 = .nan ∧ nanVsNegFive 0 1 = .val (-5) :=
  ⟨rfl, rfl, rfl⟩

/-- Claim C5 (amended): every NaN score is replaced by the sentinel -1 before
top-k selection — a selected pair whose corpus item scored NaN always carries
the score -1 — and a NaN pair is selected only when every unselected corpus
item has sanitized score at most -1, i.e. no alternative scoring above the
sentinel is ever passed over in its favour.  (The claim as stated fails for
valid scores below -1; see the counterexample.) -/
theorem C5_nan_sentinel {sf : String} {qids cids : List String}
    {raw : Nat → Nat → RawScore} {k c : Nat}
    {res : List (String × List (ℚ × String))}
    (hok : search sf qids cids raw k c = .ok res) (hnd : cids.Nodup)
    {q cN cP : Nat} {qid cidN cidP : String} {hp : List (ℚ × String)} {sN : ℚ}
    (hres : res[q]? = some (qid, hp))
    (hcN : cids[cN]? = some cidN) (hnan : raw q cN = .nan)
    (hsel : (sN, cidN) ∈ hp)
    (hcP : cids[cP]? = some cidP) (hnot : ∀ p ∈ hp, p.2 ≠ cidP) :
    sN = -1 ∧ sanitize (raw q cP) ≤ -1 := by
  obtain ⟨hhnd, hlen, hent, hdom⟩ := search_heap_facts hok hnd hres
  obtain ⟨i, hci, hsi⟩ := hent (sN, cidN) hsel
  have hieq : i = cN := getElem?_inj_of_nodup hnd hci hcN
  have h1 : sN = -1 := by
    have hsi2 : sN = sanitize (raw q i) := hsi
    rw [hsi2, hieq, hnan]
    rfl
  have h2 := hdom cP cidP hcP hnot (sN, cidN) hsel
  exact ⟨h1, by rw [← h1]; exact h2⟩

theorem C5_nan_sentinel_witness :
    ((-1 : ℚ) = -1 ∧ sanitize (nanNegThreeNegSeven 0 2) ≤ -1) :=
  C5_nan_sentinel
    (show search "cos_sim" ["q1"] ["d1", "d2", "d3"] nanNegThreeNegSeven 2 3 =
      .ok [("q1", [(-3, "d2"), (-1, "d1")])] from rfl)
    (by decide)
    (show [("q1", [((-3 : ℚ), "d2"), ((-1 : ℚ), "d1")])][0]? =
      some ("q1", [((-3 : ℚ), "d2"), ((-1 : ℚ), "d1")]) from rfl)
    (show ["d1", "d2", "d3"][0]? = some "d1" from rfl)
    (show nanNegThreeNegSeven 0 0 = .nan from rfl)
    (show ((-1 : ℚ), "d1") ∈ [((-3 : ℚ), "d2"), ((-1 : ℚ), "d1")] by decide)
    (show ["d1", "d2", "d3"][2]? = some "d3" from rfl)
    (show ∀ p ∈ [((-3 : ℚ), "d2"), ((-1 : ℚ), "d1")], p.2 ≠ "d3" by decide)

/-- Claim C6: any score function outside {`cos_sim`, `dot`} makes `search`
fail with the invalid-score-function error raised at lines 101-104, before any
other input is consulted: the outcome is the same error for every score
oracle, so no encoding or scoring work can have influenced it and no partial
result state exists. -/
theorem C6_invalid_score_function_fails_first (sf : String)
    (h1 : sf ≠ "cos_sim") (h2 : sf ≠ "dot") (qids cids : List String)
    (raw raw2 : Nat → Nat → RawScore) (k c : Nat) :
    search sf qids cids raw k c = .error .invalidScoreFunction ∧
      search sf qids cids raw k c = search sf qids cids raw2 k c := by
  have hcond : ¬ (sf = "cos_sim" ∨ sf = "dot") := by
    rintro (h | h)
    · exact h1 h
    · exact h2 h
  have e1 : ∀ r : Nat → Nat → RawScore,
      search sf qids cids r k c = .error .invalidScoreFunction := fun r => by
    rw [search, if_neg hcond]
  exact ⟨e1 raw, (e1 raw).trans (e1 raw2).symm⟩

theorem C6_invalid_score_function_witness :
    search "euclidean" ["q1"] ["d1"] threeScores 1 1 =
        .error .invalidScoreFunction ∧
      search "euclidean" ["q1"] ["d1"] threeScores 1 1 =
        search "euclidean" ["q1"] ["d1"] nanVsNegFive 1 1 :=
  C6_invalid_score_function_fails_first "euclidean" (by decide) (by decide)
    ["q1"] ["d1"] threeScores nanVsNegFive 1 1

/-- Claim C7: whenever the scored-query set is non-empty, `evaluate` succeeds
and each reported NDCG@k, MAP@k, Recall@k and P@k value is exactly the
arithmetic mean of the per-query trec scores over the set of scored queries,
rounded to 5 decimal digits. -/
theorem C7_reported_metrics_are_rounded_means (trec : String → Nat → String → ℚ)
    (conf : List ℚ → List (String × ℚ)) (nauc : List ℚ → List ℚ → ℚ)
    (qrels : Qrels) (results : ResultSet) (kValues : List Nat) (flag : Bool)
    (hnd : (results.map Prod.fst).Nodup)
    (hne : scoredIds qrels (applyIgnore flag results) ≠ []) :
    ∃ out, evaluate trec conf nauc qrels results kValues flag = .ok out ∧
      out.ndcg = kValues.map (fun k => ("NDCG@" ++ toString k,
        round5 (meanOverScored (trec "ndcg_cut" k)
          (scoredIds qrels (applyIgnore flag results))))) ∧
      out.map = kValues.map (fun k => ("MAP@" ++ toString k,
        round5 (meanOverScored (trec "map_cut" k)
          (scoredIds qrels (applyIgnore flag results))))) ∧
      out.recallK = kValues.map (fun k => ("Recall@" ++ toString k,
        round5 (meanOverScored (trec "recall" k)
          (scoredIds qrels (applyIgnore flag results))))) ∧
      out.precision = kValues.map (fun k => ("P@" ++ toString k,
        round5 (meanOverScored (trec "P" k)
          (scoredIds qrels (applyIgnore flag results))))) :=
  evaluate_ok_means trec conf nauc qrels results kValues flag hnd hne

theorem C7_reported_metrics_witness :
    ∃ out, evaluate (fun _ _ _ => 1) (fun _ => []) (fun _ _ => 0)
        [("q1", [("d1", 1)])] [("q1", [("d1", 1)])] [1] false = .ok out ∧
      out.ndcg = [1].map (fun k => ("NDCG@" ++ toString k,
        round5 (meanOverScored ((fun _ _ _ => (1 : ℚ)) "ndcg_cut" k)
          (scoredIds [("q1", [("d1", 1)])]
            (applyIgnore false [("q1", [("d1", 1)])]))))) ∧
      out.map = [1].map (fun k => ("MAP@" ++ toString k,
        round5 (meanOverScored ((fun _ _ _ => (1 : ℚ)) "map_cut" k)
          (scoredIds [("q1", [("d1", 1)])]
            (applyIgnore false [("q1", [("d1", 1)])]))))) ∧
      out.recallK = [1].map (fun k => ("Recall@" ++ toString k,
        round5 (meanOverScored ((fun _ _ _ => (1 : ℚ)) "recall" k)
          (scoredIds [("q1", [("d1", 1)])]
            (applyIgnore false [("q1", [("d1", 1)])]))))) ∧
      out.precision = [1].map (fun k => ("P@" ++ toString k,
        round5 (meanOverScored ((fun _ _ _ => (1 : ℚ)) "P" k)
          (scoredIds [("q1", [("d1", 1)])]
            (applyIgnore false [("q1", [("d1", 1)])]))))) :=
  C7_reported_metrics_are_rounded_means (fun _ _ _ => 1) (fun _ => []) (fun _ _ => 0)
    [("q1", [("d1", 1)])] [("q1", [("d1", 1)])] [1] false (by decide) (by decide)

theorem C9_tied_scores_witness :
    (idLt "a" "c" →
        (1, "c") ∈ heapAdd 2 [(1, "a"), (2, "z")] (1, "c") ∧
          (1, "a") ∉ heapAdd 2 [(1, "a"), (2, "z")] (1, "c")) ∧
      (idLt "c" "a" →
        (1, "a") ∈ heapAdd 2 [(1, "a"), (2, "z")] (1, "c") ∧
          (1, "c") ∉ heapAdd 2 [(1, "a"), (2, "z")] (1, "c")) :=
  C9_tied_scores_break_by_corpus_id
    (show ([((1 : ℚ), "a"), ((2 : ℚ), "z")]).length = 2 from rfl)
    (by decide)
    (show ((1 : ℚ), "a") ∈ [((1 : ℚ), "a"), ((2 : ℚ), "z")] by decide)
    (show ∀ y ∈ [((1 : ℚ), "a"), ((2 : ℚ), "z")], pairLe (1, "a") y by decide)
    (show "c" ≠ "a" by decide)
    (show ((1 : ℚ), "c") ∉ [((1 : ℚ), "a"), ((2 : ℚ), "z")] by decide)

/-- Claim C8 (counterexample): content that is NOT a mapping of mappings — its
second value is a bare number — nevertheless loads successfully, because
`load_results_file` only asserts that the FIRST key's value is a dict
(line 248). -/
theorem C8_counterexample :
    load_results_file badCached = .ok badCached ∧
      isResultMapping badCached = false :=
  ⟨rfl, rfl⟩

/-- Claim C8 (amended): loading succeeds exactly when the decoded content is a
non-empty object whose FIRST value is an object — later values are never
inspected — and then the content is returned unchanged; in particular a
well-formed non-empty mapping of mappings loads as itself.  Content that is
not an object, or whose first value is not an object, fails the assertion; an
empty object fails with an index error. -/
theorem C8_loader_checks_only_first_value (v : JValue) :
    ((∃ w, load_results_file v = .ok w) ↔
      ∃ k0 v0 rest, v = .obj ((k0, v0) :: rest) ∧ v0.isObj = true) ∧
      (∀ w, load_results_file v = .ok w → w = v) ∧
      (isResultMapping v = true → v ≠ .obj [] → load_results_file v = .ok v) := by
  refine ⟨⟨?_, ?_⟩, ?_, ?_⟩
  · rintro ⟨w, hw⟩
    cases v with
    | null => exact absurd hw (by simp [load_results_file])
    | bool b => exact absurd hw (by simp [load_results_file])
    | num q => exact absurd hw (by simp [load_results_file])
    | str st => exact absurd hw (by simp [load_results_file])
    | arr l => exact absurd hw (by simp [load_results_file])
    | obj l =>
      cases l with
      | nil => exact absurd hw (by simp [load_results_file])
      | cons kv rest =>
        obtain ⟨k0, v0⟩ := kv
        by_cases hv0 : v0.isObj
        · exact ⟨k0, v0, rest, rfl, hv0⟩
        · rw [load_results_file, if_neg hv0] at hw
          exact absurd hw (by simp)
  · rintro ⟨k0, v0, rest, rfl, hv0⟩
    exact ⟨.obj ((k0, v0) :: rest), by rw [load_results_file, if_pos hv0]⟩
  · intro w hw
    cases v with
    | null => exact absurd hw (by simp [load_results_file])
    | bool b => exact absurd hw (by simp [load_results_file])
    | num q => exact absurd hw (by simp [load_results_file])
    | str st => exact absurd hw (by simp [load_results_file])
    | arr l => exact absurd hw (by simp [load_results_file])
    | obj l =>
      cases l with
      | nil => exact absurd hw (by simp [load_results_file])
      | cons kv rest =>
        obtain ⟨k0, v0⟩ := kv
        by_cases hv0 : v0.isObj
        · rw [load_results_file, if_pos hv0] at hw
          exact (Except.ok.inj hw).symm
        · rw [load_results_file, if_neg hv0] at hw
          exact absurd hw (by simp)
  · intro hrm hne
    cases v with
    | null => exact absurd hrm (by simp [isResultMapping])
    | bool b => exact absurd hrm (by simp [isResultMapping])
    | num q => exact absurd hrm (by simp [isResultMapping])
    | str st => exact absurd hrm (by simp [isResultMapping])
    | arr l => exact absurd hrm (by simp [isResultMapping])
    | obj l =>
      cases l with
      | nil => exact absurd rfl hne
      | cons kv rest =>
        obtain ⟨k0, v0⟩ := kv
        have hv0 : v0.isObj = true := by
          have h2 : v0.isObj = true ∧ ∀ (a : String) (b : JValue),
              (a, b) ∈ rest → b.isObj = true := by
            simpa [isResultMapping] using hrm
          exact h2.1
        rw [load_results_file, if_pos hv0]

theorem C8_loader_witness :
    load_results_file goodCached = .ok goodCached :=
  (C8_loader_checks_only_first_value goodCached).2.2 rfl (by simp [goodCached])

/-- Claim C10 (counterexample): on an empty corpus, `search` does not return a
mapping from every query id to an empty mapping; it fails when line 146 reads
`corpus[0]["modality"]` on the empty collection (an `IndexError`). -/
theorem C10_counterexample :
    search "cos_sim" ["q1"] [] threeScores 1 5 = .error .emptyCorpus ∧
      search "cos_sim" ["q1"] [] threeScores 1 5 ≠ .ok [("q1", [])] :=
  ⟨rfl, by decide⟩

/-- Claim C10 (amended): whenever `search` returns a Result Set, the keys are
exactly the query ids, in query order — every query id is present, with an
empty inner mapping only if nothing was selected for it.  (The empty-corpus
sub-claim fails: see the counterexample.) -/
theorem C10_result_keys_are_query_ids {sf : String} {qids cids : List String}
    {raw : Nat → Nat → RawScore} {k c : Nat}
    {res : List (String × List (ℚ × String))}
    (hok : search sf qids cids raw k c = .ok res) :
    res.map Prod.fst = qids :=
  (search_ok_char hok).2.2.2.2.1

theorem C10_result_keys_witness :
    ([("q1", [((3 : ℚ), "d1")])].map Prod.fst) = ["q1"] :=
  C10_result_keys_are_query_ids
    (show search "dot" ["q1"] ["d1"] threeScores 1 1 =
      .ok [("q1", [(3, "d1")])] from rfl)

end Any2Any
